import Mathlib

set_option maxHeartbeats 1000000

/-!
Verification of the shitposter3 automation core: a shallow embedding of
the Chrome remote-debugging client (chrome_automation.py), the Ollama
integration (ollama_integration.py) and the orchestration engine
(core/engine.py), together with proofs of the specified properties.

The file is organised as definitions first (one namespace per source
module), then the proofs.
-/

namespace Shitposter

/-- Python dict update `d[k] = v` on an association list: replaces the
value in place when the key is present (keeping its position, as
CPython dicts do), appends otherwise. -/
def dictSet {α : Type} : List (String × α) → String → α → List (String × α)
  | [], k, v => [(k, v)]
  | (k', v') :: rest, k, v =>
      if k' = k then (k, v) :: rest else (k', v') :: dictSet rest k v

/-- Python dict lookup `d.get(k)` on an association list. -/
def dictGet {α : Type} : List (String × α) → String → Option α
  | [], _ => none
  | (k', v') :: rest, k => if k' = k then some v' else dictGet rest k

/-- JSON values, as produced by `json.loads`; numbers are modelled as
rationals. -/
inductive Json where
  | null
  | bool (b : Bool)
  | num (q : ℚ)
  | str (s : String)
  | arr (elems : List Json)
  | obj (fields : List (String × Json))

/-- Field lookup `j.get(k)` on a JSON object; `none` for a missing key
or a non-object. -/
def Json.get (j : Json) (k : String) : Option Json :=
  match j with
  | .obj fields => dictGet fields k
  | _ => none

/-- Python truthiness of a JSON value (`if not node_id: ...`). -/
def Json.truthy : Json → Bool
  | .null => false
  | .bool b => b
  | .num q => q != 0
  | .str s => s != ""
  | .arr l => !l.isEmpty
  | .obj l => !l.isEmpty

namespace Chrome

/-- Connection state of one ChromeRemoteDebugger instance: the
`message_id` counter and the key set of the `callbacks` correlation
table (in insertion order), plus the `_listening` flag and whether
`self.ws` is set. -/
structure Conn where
  message_id : Nat
  callbacks : List Nat
  listening : Bool
  wsOpen : Bool
deriving DecidableEq

/-- State right after a successful `connect()`. -/
def Conn.init : Conn := ⟨0, [], true, true⟩

/-- Events: one `send_command` call, the receive loop decoding one
inbound frame (carrying an `id` field or not), or `close()`. -/
inductive Event where
  | send
  | recv (frameId : Option Nat)
  | close
deriving DecidableEq

/-- Result of one transition: the new state, the id allocated by a
`send` (if any) and the id whose pending completion was resolved by a
`recv` (if any). -/
structure StepOut where
  state : Conn
  alloc : Option Nat
  resolved : Option Nat
deriving DecidableEq

/-- One transition.  `send_command` increments `message_id`, registers
the callback under the new id and writes the frame (when `self.ws` is
unset it raises instead, allocating nothing).  `_listen` runs while
`self._listening and self.ws`; for a frame with an `id` field it pops
the callback for that id and resolves it, so a frame without a matching
entry, or without an id, resolves nothing.  `close()` clears
`_listening` and `self.ws`. -/
def step (s : Conn) : Event → StepOut
  | .send =>
      if s.wsOpen then
        ⟨⟨s.message_id + 1, s.callbacks ++ [s.message_id + 1], s.listening, s.wsOpen⟩,
          some (s.message_id + 1), none⟩
      else ⟨s, none, none⟩
  | .recv frameId =>
      if s.listening && s.wsOpen then
        match frameId with
        | some i =>
            if i ∈ s.callbacks then
              ⟨⟨s.message_id, s.callbacks.erase i, s.listening, s.wsOpen⟩, none, some i⟩
            else ⟨s, none, none⟩
        | none => ⟨s, none, none⟩
      else ⟨s, none, none⟩
  | .close => ⟨⟨s.message_id, s.callbacks, false, false⟩, none, none⟩

/-- Outcome of a run: final state, chronological list of allocated
request ids, chronological list of resolved ids. -/
structure RunOut where
  state : Conn
  allocs : List Nat
  resolves : List Nat
deriving DecidableEq

/-- Run a list of events from a state, logging allocations and
resolutions. -/
def run (s : Conn) : List Event → RunOut
  | [] => ⟨s, [], []⟩
  | e :: es =>
      let o := step s e
      let r := run o.state es
      ⟨r.state, o.alloc.toList ++ r.allocs, o.resolved.toList ++ r.resolves⟩

/-- Reachability invariant tying the correlation table to the set of
ids resolved so far. -/
structure Inv (s : Conn) (resolved : List Nat) : Prop where
  nodupCallbacks : s.callbacks.Nodup
  callbacksLe : ∀ i ∈ s.callbacks, i ≤ s.message_id
  resolvedLe : ∀ i ∈ resolved, i ≤ s.message_id
  resolvedGone : ∀ i ∈ resolved, i ∉ s.callbacks
  nodupResolved : resolved.Nodup

/-- On a connection whose WebSocket has been closed, no continuation of
the run can resolve anything: `send_command` raises, and the listen
loop condition `self._listening and self.ws` is false. -/
def neverResolves (s : Conn) : Prop :=
  ∀ es : List Event, (run s es).resolves = []

/-- One `wait_for_selector` polling loop body, with explicit fuel.
`t` is elapsed milliseconds since the call started; the loop runs
while `t` is below the deadline, probes `query_selector` (the probe
outcome at elapsed time `t` is `present t`), returns true on a truthy
probe and otherwise sleeps 0.1 s before re-probing. -/
def waitFrom (present : Nat → Bool) (deadline : Nat) : Nat → Nat → Bool
  | 0, _ => false
  | fuel + 1, t =>
      if t < deadline then
        if present t then true
        else waitFrom present deadline fuel (t + 100)
      else false

/-- Embeds `ChromeRemoteDebugger.wait_for_selector(selector, timeout)`:
`timeout` is in milliseconds; the fuel bound covers every probe the
loop can make before the deadline. -/
def wait_for_selector (present : Nat → Bool) (timeout : Nat) : Bool :=
  waitFrom present timeout (timeout / 100 + 1) 0

/-- Result of `query_selector` as read from a wire response:
`response.get("result", {}).get("nodeId")`. -/
def qsNodeId (resp : Json) : Option Json :=
  ((resp.get "result").getD (.obj [])).get "nodeId"

/-- Whether the resolve-node step of `set_input_value` succeeds:
the queried node id exists and is truthy (`if not node_id: return
False`).  `env k` is the wire response to the k-th `send_command`
issued by the operation; call 1 is `DOM.querySelector`. -/
def resolveOk (env : Nat → Json) : Bool :=
  match qsNodeId (env 1) with
  | some v => v.truthy
  | none => false

/-- Embeds `ChromeRemoteDebugger.set_input_value(selector, value)`
against a response environment `env` (the response to the k-th
correlated round trip the call issues).  Returns the boolean result
together with the chronological list of protocol methods sent.
`query_selector` first fetches the document root (`DOM.getDocument`,
call 0) and then queries (`DOM.querySelector`, call 1); on a falsy node
id the operation returns False; otherwise it sends `DOM.focus` (call 2)
and `Input.insertText` (call 3), discards both responses, and returns
True. -/
def set_input_value (env : Nat → Json) : Bool × List String :=
  let nodeId := qsNodeId (env 1)
  match nodeId with
  | none => (false, ["DOM.getDocument", "DOM.querySelector"])
  | some v =>
      if v.truthy then
        (true, ["DOM.getDocument", "DOM.querySelector", "DOM.focus", "Input.insertText"])
      else (false, ["DOM.getDocument", "DOM.querySelector"])

/-- Response environment for the run in which the target element
disappears right after the resolve-node step: the document and query
responses resolve node id 5, and every later call (the focus and
insert-text steps) answers with a protocol error payload. -/
def envElementGone : Nat → Json
  | 0 => .obj [("id", .num 1),
      ("result", .obj [("root", .obj [("nodeId", .num 1)])])]
  | 1 => .obj [("id", .num 2), ("result", .obj [("nodeId", .num 5)])]
  | _ => .obj [("id", .num 3),
      ("error", .obj [("code", .num (-32000)),
        ("message", .str "Could not find node with given id")])]

end Chrome

namespace Ollama

/-- Outcome of the `json.loads(result["response"])` attempt inside
`analyze_screen_content`: the `response` field may be missing or not a
string, `json.loads` may raise `JSONDecodeError`, or it may return a
JSON value. -/
inductive LoadsOutcome where
  | noResponse
  | decodeError
  | value (j : Json)

/-- Fallback object built at the end of `analyze_screen_content`. -/
def fallback_analysis : Json :=
  .obj [("understanding", .str "Failed to analyze content"),
        ("detected_activities", .arr []),
        ("key_elements", .arr []),
        ("user_intent", .str "unknown"),
        ("context_category", .str "unknown"),
        ("confidence", .num 0),
        ("suggested_automations", .arr [])]

/-- Whether a JSON value is an object. -/
def Json.isObj : Json → Bool
  | .obj _ => true
  | _ => false

/-- Embeds `OllamaAI.analyze_screen_content` from the point where the
inference reply is in hand; `lastTime` is `self.last_analysis_time`.
When the parsed value is a JSON object, `analysis["timestamp"] = ...`
sets the timestamp key and the object is returned; when it is any
other JSON value, that item assignment raises a TypeError which no
handler catches (only `json.JSONDecodeError` is caught); a missing or
non-string `response`, or a decode error, falls through to the
fallback return. -/
def analyze_screen_content (r : LoadsOutcome) (lastTime : Json) : Except String Json :=
  match r with
  | .value (.obj fields) => .ok (.obj (dictSet fields "timestamp" lastTime))
  | .value _ => .error "TypeError: item assignment on a non-object"
  | .decodeError => .ok fallback_analysis
  | .noResponse => .ok fallback_analysis

/-- Embeds `OllamaAI._update_context`: append the exchange and, when
the window exceeds the maximum length, `pop(0)` the oldest entry. -/
def update_context (maxLen : Nat) (ctx : List (String × String)) (e : String × String) :
    List (String × String) :=
  let c := ctx ++ [e]
  if maxLen < c.length then c.tail else c

/-- Value of `self.max_context_length` set in `OllamaAI.__init__`. -/
def max_context_length : Nat := 10

end Ollama

namespace Engine

/-- Stored record for one registered command,
`self.running_commands[command_name]`: pid, start time and the initial
stats dict `{"cpu": 0, "memory": 0}` (which nothing ever updates). -/
structure CmdInfo where
  pid : Nat
  start_time : ℚ
  statsCpu : ℚ
  statsMem : ℚ
deriving DecidableEq

/-- Live process metrics as read back through `psutil.Process(pid)`;
`none` models `NoSuchProcess` or `AccessDenied`.  `memory` is the
resident set size in bytes. -/
structure ProcView where
  cpu : ℚ
  memory : ℚ
  status : String
deriving DecidableEq

/-- One entry of the `get_command_stats` result: either the live
five-field dict or the bare terminated dict, which carries no cpu or
memory fields. -/
inductive StatReport where
  | live (pid : Nat) (runtime : ℚ) (cpu : ℚ) (memory : ℚ) (status : String)
  | terminated
deriving DecidableEq

/-- Embeds `AutomationEngine.register_command`: stores the record under
the command name, overwriting any previous entry for that name. -/
def register_command (rc : List (String × CmdInfo)) (name : String) (pid : Nat) (now : ℚ) :
    List (String × CmdInfo) :=
  dictSet rc name ⟨pid, now, 0, 0⟩

/-- Embeds `AutomationEngine.get_command_stats`: re-reads live process
metrics per call for every registered entry (runtime from the stored
start time, memory reported in MB); an entry whose pid does not
resolve is reported as terminated.  The registry itself is only read,
never modified. -/
def get_command_stats (rc : List (String × CmdInfo)) (now : ℚ) (os : Nat → Option ProcView) :
    List (String × StatReport) :=
  rc.map (fun p =>
    match os p.2.pid with
    | some pv =>
        (p.1, .live p.2.pid (now - p.2.start_time) pv.cpu (pv.memory / (1024 * 1024)) pv.status)
    | none => (p.1, .terminated))

/-- Fields of an analysis dict as read by `_process_analysis`:
`analysis.get("confidence", 0)` (`none` models a missing key) and
`analysis.get("suggested_actions", [])`. -/
structure Analysis where
  confidence : Option ℚ
  suggested_actions : List Json

/-- Embeds `AutomationEngine._process_analysis`: when
`analysis.get("confidence", 0) > 0.7`, each suggested action is put on
the action queue in list order (the queue is FIFO, so they are appended
at the back); otherwise nothing is enqueued. -/
def process_analysis (a : Analysis) (queue : List Json) : List Json :=
  if (7 : ℚ) / 10 < a.confidence.getD 0 then queue ++ a.suggested_actions else queue

/-- Fields of one `daily_analysis` entry as read by
`get_daily_summary`: the entry timestamp and, from its analysis dict,
`confidence` (0 when missing) and `key_elements` ([] when missing). -/
structure Entry where
  timestamp : String
  confidence : Option ℚ
  key_elements : List String

/-- Python `patterns[element] = patterns.get(element, 0) + 1` on an
association list: increments in place (keeping the key position) or
appends a new key with count 1. -/
def bumpKey : List (String × Nat) → String → List (String × Nat)
  | [], k => [(k, 1)]
  | (k', c) :: rest, k =>
      if k' = k then (k', c + 1) :: rest else (k', c) :: bumpKey rest k

/-- Occurrence counts of the `key_elements` of all entries, with keys
in first-seen order, exactly as the `patterns` dict loop builds them. -/
def patternsOf (entries : List Entry) : List (String × Nat) :=
  entries.foldl (fun m e => e.key_elements.foldl bumpKey m) []

/-- Count stored for a key in the patterns table, 0 when absent
(`patterns.get(element, 0)`). -/
def countVal (m : List (String × Nat)) (k : String) : Nat :=
  (dictGet m k).getD 0

/-- Stable insertion for a descending sort by count: the new element
goes in front of the first element whose count does not exceed its own,
so elements with equal counts keep their original relative order. -/
def insertDesc (a : String × Nat) : List (String × Nat) → List (String × Nat)
  | [] => [a]
  | b :: l => if b.2 ≤ a.2 then a :: b :: l else b :: insertDesc a l

/-- Models `sorted(patterns.items(), key=lambda x: x[1], reverse=True)`
(a stable descending sort by frequency, as the python builtin
guarantees). -/
def sortDesc : List (String × Nat) → List (String × Nat)
  | [] => []
  | a :: l => insertDesc a (sortDesc l)

/-- Modelled from the spec wording: insertion for the ordering
`higher count first, ties broken by smaller first-seen index first`,
on count entries paired with their first-seen index. -/
def lexInsert (a : Nat × (String × Nat)) :
    List (Nat × (String × Nat)) → List (Nat × (String × Nat))
  | [] => [a]
  | b :: l =>
      if b.2.2 < a.2.2 ∨ (b.2.2 = a.2.2 ∧ a.1 < b.1) then a :: b :: l
      else b :: lexInsert a l

/-- Modelled from the spec wording: sort by the ordering of
`lexInsert`. -/
def lexSort : List (Nat × (String × Nat)) → List (Nat × (String × Nat))
  | [] => []
  | a :: l => lexInsert a (lexSort l)

/-- Modelled from the spec wording for the daily summary: the five most
frequent elements of the count table, ordered by frequency descending
with ties broken by first-seen order (the index attached by `enum`). -/
def spec_top_patterns (counts : List (String × Nat)) : List (String × Nat) :=
  ((lexSort counts.enum).map Prod.snd).take 5

/-- Appends a key if it has not been seen yet (python dict key
insertion order). -/
def addFirst (acc : List String) (a : String) : List String :=
  if a ∈ acc then acc else acc ++ [a]

/-- Keys of a stream in order of first appearance. -/
def firstSeens (l : List String) : List String :=
  l.foldl addFirst []

/-- Result dict of `get_daily_summary` on a non-empty log; a
`common_patterns` element `(p, f)` models the dict
`{"pattern": p, "frequency": f}`. -/
structure Summary where
  total_observations : Nat
  average_confidence : ℚ
  common_patterns : List (String × Nat)
  start_time : String
  end_time : String
deriving DecidableEq

/-- Embeds `AutomationEngine.get_daily_summary`; `none` models the
`{"error": "No analysis data available"}` return on an empty log. -/
def get_daily_summary (entries : List Entry) : Option Summary :=
  match entries with
  | [] => none
  | e0 :: rest =>
      some
        ⟨(e0 :: rest).length,
         ((e0 :: rest).foldl (fun s e => s + e.confidence.getD 0) 0) / ((e0 :: rest).length : ℚ),
         (sortDesc (patternsOf (e0 :: rest))).take 5,
         e0.timestamp,
         ((e0 :: rest).getLast (List.cons_ne_nil e0 rest)).timestamp⟩

end Engine

end Shitposter

namespace Shitposter

namespace Chrome

lemma inv_init : Inv Conn.init [] :=
  ⟨List.nodup_nil, by simp [Conn.init], by simp, by simp, List.nodup_nil⟩

lemma inv_of_unchanged (s : Conn) (R : List Nat) (h : Inv s R) :
    Inv s (R ++ (none : Option Nat).toList) := by
  simpa using h

lemma inv_step (s : Conn) (R : List Nat) (e : Event) (h : Inv s R) :
    Inv (step s e).state (R ++ ((step s e).resolved).toList) := by
  obtain ⟨hnd, hcle, hrle, hrg, hndr⟩ := h
  cases e with
  | send =>
    cases hw : s.wsOpen with
    | true =>
      simp only [step, hw, if_true, Option.toList_none, List.append_nil]
      refine ⟨?_, ?_, ?_, ?_, hndr⟩
      · exact hnd.append (List.nodup_singleton _)
          (fun i hi hmem => by
            simp only [List.mem_singleton] at hmem
            have := hcle i hi
            omega)
      · intro i hi
        dsimp only at hi ⊢
        rcases List.mem_append.mp hi with h1 | h1
        · have := hcle i h1; omega
        · simp only [List.mem_singleton] at h1; omega
      · intro i hi
        dsimp only
        have := hrle i hi; omega
      · intro i hi hc
        dsimp only at hc
        rcases List.mem_append.mp hc with h1 | h1
        · exact hrg i hi h1
        · simp only [List.mem_singleton] at h1
          have := hrle i hi; omega
    | false =>
      simp only [step, hw, Bool.false_eq_true, if_false]
      exact inv_of_unchanged s R ⟨hnd, hcle, hrle, hrg, hndr⟩
  | recv frameId =>
    cases hl : s.listening && s.wsOpen with
    | true =>
      cases frameId with
      | some i =>
        by_cases hm : i ∈ s.callbacks
        · simp only [step, hl, if_true, if_pos hm, Option.toList_some]
          refine ⟨hnd.erase i, ?_, ?_, ?_, ?_⟩
          · intro j hj
            exact hcle j (List.mem_of_mem_erase hj)
          · intro j hj
            rcases List.mem_append.mp hj with h1 | h1
            · exact hrle j h1
            · simp only [List.mem_singleton] at h1
              subst h1
              exact hcle j hm
          · intro j hj
            rcases List.mem_append.mp hj with h1 | h1
            · intro hc
              exact hrg j h1 (List.mem_of_mem_erase hc)
            · simp only [List.mem_singleton] at h1
              subst h1
              exact hnd.not_mem_erase
          · refine hndr.append (List.nodup_singleton _) ?_
            intro j hj hc
            simp only [List.mem_singleton] at hc
            subst hc
            exact hrg j hj hm
        · simp only [step, hl, if_true, if_neg hm]
          exact inv_of_unchanged s R ⟨hnd, hcle, hrle, hrg, hndr⟩
      | none =>
        simp only [step, hl, if_true]
        exact inv_of_unchanged s R ⟨hnd, hcle, hrle, hrg, hndr⟩
    | false =>
      have hst : step s (Event.recv frameId) = ⟨s, none, none⟩ := by
        cases frameId with
        | some i => simp [step, hl]
        | none => simp [step, hl]
      rw [hst]
      exact inv_of_unchanged s R ⟨hnd, hcle, hrle, hrg, hndr⟩
  | close =>
    simp only [step, Option.toList_none, List.append_nil]
    exact ⟨hnd, hcle, hrle, hrg, hndr⟩

lemma inv_run (s : Conn) (R : List Nat) (es : List Event) (h : Inv s R) :
    Inv (run s es).state (R ++ (run s es).resolves) := by
  induction es generalizing s R with
  | nil => simpa [run] using h
  | cons e es ih =>
      have h2 := ih (step s e).state (R ++ ((step s e).resolved).toList) (inv_step s R e h)
      simpa [run, List.append_assoc] using h2

lemma run_resolves_nodup (es : List Event) : ((run Conn.init es).resolves).Nodup := by
  have h := inv_run Conn.init [] es inv_init
  simpa using h.nodupResolved

lemma step_message_id_le (s : Conn) (e : Event) :
    s.message_id ≤ (step s e).state.message_id := by
  cases e with
  | send => cases hw : s.wsOpen <;> simp [step, hw]
  | recv frameId =>
      cases hl : s.listening && s.wsOpen with
      | true =>
        cases frameId with
        | some i => by_cases hm : i ∈ s.callbacks <;> simp [step, hl, hm]
        | none => simp [step, hl]
      | false =>
        cases frameId with
        | some i => simp [step, hl]
        | none => simp [step, hl]
  | close => simp [step]

lemma run_allocs_gt (es : List Event) :
    ∀ s : Conn, ∀ i ∈ (run s es).allocs, s.message_id < i := by
  induction es with
  | nil => intro s i hi; simp [run] at hi
  | cons e es ih =>
      intro s i hi
      simp only [run, List.mem_append] at hi
      rcases hi with h1 | h1
      · cases e with
        | send =>
            cases hw : s.wsOpen with
            | true => simp [step, hw] at h1; omega
            | false => simp [step, hw] at h1
        | recv frameId =>
            cases hl : s.listening && s.wsOpen with
            | true =>
              cases frameId with
              | some j => by_cases hm : j ∈ s.callbacks <;> simp [step, hl, hm] at h1
              | none => simp [step, hl] at h1
            | false =>
              cases frameId with
              | some j => simp [step, hl] at h1
              | none => simp [step, hl] at h1
        | close => simp [step] at h1
      · have h2 := ih (step s e).state i h1
        have h3 := step_message_id_le s e
        omega

lemma run_allocs_sorted (es : List Event) :
    ∀ s : Conn, ((run s es).allocs).Pairwise (· < ·) := by
  induction es with
  | nil => intro s; simp [run]
  | cons e es ih =>
      intro s
      simp only [run]
      rw [List.pairwise_append]
      refine ⟨?_, ih (step s e).state, ?_⟩
      · cases h : (step s e).alloc <;> simp
      · intro i hi j hj
        have h2 := run_allocs_gt es (step s e).state j hj
        cases e with
        | send =>
            cases hw : s.wsOpen with
            | true => simp [step, hw] at hi h2 ⊢; omega
            | false => simp [step, hw] at hi
        | recv frameId =>
            cases hl : s.listening && s.wsOpen with
            | true =>
              cases frameId with
              | some k => by_cases hm : k ∈ s.callbacks <;> simp [step, hl, hm] at hi
              | none => simp [step, hl] at hi
            | false =>
              cases frameId with
              | some k => simp [step, hl] at hi
              | none => simp [step, hl] at hi
        | close => simp [step] at hi

lemma step_wsClosed (s : Conn) (e : Event) (h : s.wsOpen = false) :
    (step s e).state.wsOpen = false ∧ (step s e).resolved = none := by
  cases e with
  | send => simp [step, h]
  | recv frameId =>
      have hl : (s.listening && s.wsOpen) = false := by simp [h]
      cases frameId with
      | some i => simp [step, hl, h]
      | none => simp [step, hl, h]
  | close => simp [step]

lemma wsClosed_neverResolves (s : Conn) (h : s.wsOpen = false) : neverResolves s := by
  intro es
  induction es generalizing s with
  | nil => simp [run]
  | cons e es ih =>
      obtain ⟨h1, h2⟩ := step_wsClosed s e h
      simp [run, h2, ih (step s e).state h1]

lemma waitFrom_iff (present : Nat → Bool) (d : Nat) :
    ∀ fuel t, d ≤ t + 100 * fuel →
      (waitFrom present d fuel t = true ↔
        ∃ k, t + 100 * k < d ∧ present (t + 100 * k) = true) := by
  intro fuel
  induction fuel with
  | zero =>
      intro t ht
      simp only [waitFrom]
      constructor
      · intro h
        exact absurd h (by simp)
      · rintro ⟨k, hk, -⟩
        omega
  | succ fuel ih =>
      intro t ht
      by_cases hlt : t < d
      · cases hp : present t with
        | true =>
            have hL : waitFrom present d (fuel + 1) t = true := by
              simp [waitFrom, hlt, hp]
            rw [hL]
            simp only [true_iff]
            exact ⟨0, by simpa using hlt, by simpa using hp⟩
        | false =>
            have hL : waitFrom present d (fuel + 1) t = waitFrom present d fuel (t + 100) := by
              simp [waitFrom, hlt, hp]
            rw [hL, ih (t + 100) (by omega)]
            constructor
            · rintro ⟨k, hk, hpk⟩
              refine ⟨k + 1, by omega, ?_⟩
              have he : t + 100 * (k + 1) = t + 100 + 100 * k := by ring
              rw [he]
              exact hpk
            · rintro ⟨k, hk, hpk⟩
              cases k with
              | zero =>
                  simp only [Nat.mul_zero, Nat.add_zero] at hpk
                  rw [hp] at hpk
                  exact absurd hpk (by simp)
              | succ k =>
                  refine ⟨k, by omega, ?_⟩
                  have he : t + 100 + 100 * k = t + 100 * (k + 1) := by ring
                  rw [he]
                  exact hpk
      · have hL : waitFrom present d (fuel + 1) t = false := by
          simp only [waitFrom]
          rw [if_neg hlt]
        rw [hL]
        constructor
        · intro h
          exact absurd h (by simp)
        · rintro ⟨k, hk, -⟩
          omega

/-- C1 (amended): over any event sequence on one connection, each
request id is resolved at most once; the receive loop pops the pending
completion from the correlation table when it resolves it, so a second
inbound frame carrying the same id resolves nothing. -/
theorem resolution_at_most_once (es : List Event) (i : Nat) :
    ((run Conn.init es).resolves).count i ≤ 1 :=
  List.nodup_iff_count_le_one.mp (run_resolves_nodup es) i

/-- C1 (counterexample to the claim as stated): the concrete run that
issues one request and then closes the connection resolves nothing for
the issued id 1, which stays pending, and no continuation of the run
can ever resolve it; `send_command` has no timeout, so none of
resolved-with-result, resolved-with-error or timed-out occurs for that
request. -/
theorem request_can_go_unresolved :
    (run Conn.init [Event.send, Event.close]).allocs = [1] ∧
    1 ∈ (run Conn.init [Event.send, Event.close]).state.callbacks ∧
    (run Conn.init [Event.send, Event.close]).resolves = [] ∧
    neverResolves (run Conn.init [Event.send, Event.close]).state := by
  refine ⟨rfl, by decide, rfl, ?_⟩
  exact wsClosed_neverResolves _ rfl

/-- C6: request ids allocated by one connection instance are strictly
increasing, hence never reused, over any event sequence on that
connection: each `send_command` allocates an id strictly greater than
every id allocated before it. -/
theorem request_ids_strictly_increasing (es : List Event) :
    ((run Conn.init es).allocs).Pairwise (· < ·) :=
  run_allocs_sorted es Conn.init

/-- C3: `wait_for_selector(selector, T)` returns true iff one of its
`query_selector` probes, made at the fixed 100 ms sub-interval, is
truthy strictly before `T` milliseconds have elapsed; in particular a
selector that first appears strictly after `T` milliseconds yields
false. -/
theorem wait_for_selector_iff (present : Nat → Bool) (T : Nat) :
    (wait_for_selector present T = true ↔
      ∃ k, 100 * k < T ∧ present (100 * k) = true) ∧
    ((∀ t, t ≤ T → present t = false) → wait_for_selector present T = false) := by
  have hiff := waitFrom_iff present T (T / 100 + 1) 0 (by omega)
  constructor
  · simpa [wait_for_selector] using hiff
  · intro hafter
    have hne : ¬ (wait_for_selector present T = true) := by
      rw [wait_for_selector, hiff]
      rintro ⟨k, hk, hp⟩
      have hz := hafter (0 + 100 * k) (by omega)
      rw [hz] at hp
      exact absurd hp (by simp)
    simp only [Bool.not_eq_true] at hne
    exact hne

/-- C3 witness: a selector that first appears at 301 ms (strictly after
the 300 ms timeout) is reported as not found. -/
theorem wait_for_selector_iff_witness :
    wait_for_selector (fun t => decide (300 < t)) 300 = false :=
  (wait_for_selector_iff (fun t => decide (300 < t)) 300).2
    (fun t ht => by
      simp only [decide_eq_false_iff_not]
      omega)

/-- C4 (amended): `set_input_value` issues four correlated round trips
on the success path (document-root fetch, query-selector, focus,
insert-text) and two on the failure path; it returns false exactly when
the query-selector step yields no truthy node id, and its result is
independent of the focus and insert-text responses, so when the element
disappears after the resolve step the operation still returns true. -/
theorem set_input_value_characterisation (env env' : Nat → Json)
    (h1 : env 1 = env' 1) :
    set_input_value env = set_input_value env' ∧
    ((set_input_value env).1 = true ↔ resolveOk env = true) ∧
    ((set_input_value env).1 = true →
      (set_input_value env).2
        = ["DOM.getDocument", "DOM.querySelector", "DOM.focus", "Input.insertText"]) ∧
    ((set_input_value env).1 = false →
      (set_input_value env).2 = ["DOM.getDocument", "DOM.querySelector"]) := by
  simp only [set_input_value, resolveOk, h1]
  cases hq : qsNodeId (env' 1) with
  | none => simp
  | some v =>
      cases hv : v.truthy with
      | true => simp [hv]
      | false => simp [hv]

/-- C4 witness: on the concrete environment where the element
disappears after the resolve step, the operation issues the four
documented round trips. -/
theorem set_input_value_characterisation_witness :
    (set_input_value envElementGone).2
      = ["DOM.getDocument", "DOM.querySelector", "DOM.focus", "Input.insertText"] :=
  (set_input_value_characterisation envElementGone envElementGone rfl).2.2.1 (by rfl)

/-- C4 (counterexample to the claim as stated): in the concrete run
where the element disappears right after the resolve step (the focus
and insert-text responses carry protocol error payloads),
`set_input_value` still returns success rather than failure, and the
operation issues four round trips, not three. -/
theorem set_input_value_ignores_lost_element :
    (set_input_value envElementGone).1 = true ∧
    (set_input_value envElementGone).2.length = 4 ∧
    ((envElementGone 2).get "error").isSome = true ∧
    ((envElementGone 3).get "error").isSome = true := by
  refine ⟨?_, ?_, rfl, rfl⟩ <;> rfl

end Chrome

namespace Ollama

/-- C2 (amended): a reply whose response text is missing, not a string,
or not valid JSON makes `analyze_screen_content` return the documented
fallback object, whose confidence is 0.0 and whose list fields are
empty; a reply that parses to a JSON object is returned as the parsed
analysis with a timestamp key set; but a reply that parses to a
non-object JSON value raises an uncaught TypeError to the caller. -/
theorem analyze_screen_content_cases (fields : List (String × Json)) (t : Json) :
    analyze_screen_content .decodeError t = .ok fallback_analysis ∧
    analyze_screen_content .noResponse t = .ok fallback_analysis ∧
    fallback_analysis.get "confidence" = some (.num 0) ∧
    fallback_analysis.get "key_elements" = some (.arr []) ∧
    fallback_analysis.get "detected_activities" = some (.arr []) ∧
    fallback_analysis.get "suggested_automations" = some (.arr []) ∧
    analyze_screen_content (.value (.obj fields)) t
      = .ok (.obj (dictSet fields "timestamp" t)) ∧
    (∀ j : Json, Json.isObj j = false →
      analyze_screen_content (.value j) t
        = .error "TypeError: item assignment on a non-object") := by
  refine ⟨rfl, rfl, rfl, rfl, rfl, rfl, rfl, ?_⟩
  intro j hj
  cases j with
  | obj f => simp [Json.isObj] at hj
  | null => rfl
  | bool b => rfl
  | num q => rfl
  | str s => rfl
  | arr l => rfl

/-- C2 witness: concrete instances of the amended behaviour, including
the uncaught TypeError for the reply text 42 (valid JSON, not an
object). -/
theorem analyze_screen_content_cases_witness :
    Json.isObj (Json.num 42) = false ∧
    analyze_screen_content .decodeError .null = .ok fallback_analysis ∧
    analyze_screen_content (.value (.num 42)) .null
      = .error "TypeError: item assignment on a non-object" :=
  ⟨rfl, (analyze_screen_content_cases [] .null).1,
    (analyze_screen_content_cases [] .null).2.2.2.2.2.2.2 (.num 42) rfl⟩

/-- C2 (counterexample to the claim as stated): the reply text 42 is
valid JSON but not an object of the documented schema, so it is not
parseable against the schema; nevertheless `analyze_screen_content`
does not return the zero-confidence fallback object: the timestamp item
assignment raises a TypeError that propagates to the caller. -/
theorem analyze_screen_content_typeerror :
    analyze_screen_content (.value (.num 42)) .null
      = .error "TypeError: item assignment on a non-object" ∧
    analyze_screen_content (.value (.num 42)) .null ≠ .ok fallback_analysis := by
  exact ⟨rfl, by simp [analyze_screen_content]⟩

lemma update_context_length_le (maxLen : Nat) (ctx : List (String × String))
    (e : String × String) (h : ctx.length ≤ maxLen) :
    (update_context maxLen ctx e).length ≤ maxLen := by
  unfold update_context
  by_cases hc : maxLen < (ctx ++ [e]).length
  · rw [if_pos hc]
    simp only [List.length_tail, List.length_append, List.length_singleton]
    omega
  · rw [if_neg hc]
    simp only [List.length_append, List.length_singleton] at hc ⊢
    omega

lemma foldl_update_context_le (maxLen : Nat) (es : List (String × String)) :
    ∀ ctx : List (String × String), ctx.length ≤ maxLen →
      (es.foldl (update_context maxLen) ctx).length ≤ maxLen := by
  induction es with
  | nil => intro ctx h; simpa using h
  | cons e es ih =>
      intro ctx h
      simpa [List.foldl_cons] using ih _ (update_context_length_le maxLen ctx e h)

/-- C9: after `_update_context` on a context within the limit, the
window still holds at most `max_context_length` (10) entries; below the
limit the exchange is appended, and at the limit exactly the oldest
entry is evicted while the order of the remaining entries is preserved;
any sequence of updates starting from the empty context of `__init__`
stays within the limit. -/
theorem update_context_window (ctx : List (String × String)) (e : String × String)
    (h : ctx.length ≤ max_context_length) :
    (update_context max_context_length ctx e).length ≤ max_context_length ∧
    (ctx.length < max_context_length →
      update_context max_context_length ctx e = ctx ++ [e]) ∧
    (ctx.length = max_context_length →
      update_context max_context_length ctx e = ctx.tail ++ [e]) ∧
    (∀ es : List (String × String),
      (es.foldl (update_context max_context_length) []).length ≤ max_context_length) := by
  refine ⟨update_context_length_le _ ctx e h, ?_, ?_, ?_⟩
  · intro hlt
    unfold update_context
    rw [if_neg]
    simp only [List.length_append, List.length_singleton]
    omega
  · intro heq
    cases ctx with
    | nil => simp [max_context_length] at heq
    | cons a l =>
        unfold update_context
        rw [if_pos]
        · simp
        · simp only [List.length_append, List.length_cons, List.length_singleton]
          simp only [List.length_cons] at heq
          omega
  · intro es
    exact foldl_update_context_le _ es [] (by simp)

/-- C9 witness: updating a full ten-entry window evicts exactly the
oldest entry and appends the new exchange. -/
theorem update_context_window_witness :
    (update_context max_context_length (List.replicate 10 ("p", "r")) ("q", "s")).length
      ≤ max_context_length ∧
    update_context max_context_length (List.replicate 10 ("p", "r")) ("q", "s")
      = (List.replicate 10 ("p", "r")).tail ++ [("q", "s")] := by
  have h := update_context_window (List.replicate 10 ("p", "r")) ("q", "s")
    (by simp [max_context_length])
  exact ⟨h.1, h.2.2.1 (by simp [max_context_length])⟩

end Ollama

namespace Engine

lemma dictGet_stats (rc : List (String × CmdInfo)) (now : ℚ)
    (os : Nat → Option ProcView) (name : String) :
    dictGet (get_command_stats rc now os) name
      = (dictGet rc name).map (fun info =>
          match os info.pid with
          | some pv =>
              StatReport.live info.pid (now - info.start_time) pv.cpu
                (pv.memory / (1024 * 1024)) pv.status
          | none => .terminated) := by
  induction rc with
  | nil => rfl
  | cons p rest ih =>
      obtain ⟨k, info⟩ := p
      by_cases hk : k = name
      · subst hk
        cases hos : os info.pid <;>
          simp [get_command_stats, dictGet, hos]
      · cases hos : os info.pid <;>
          simpa [get_command_stats, dictGet, hos, hk] using ih

/-- C5: a registered command record whose pid has stopped resolving is
reported as terminated, with no live cpu or memory fields, both in the
query that first observes it and in every later query (the pid of a
dead process no longer resolves); `get_command_stats` only reads the
registry, so the record stays visible in every query and is never
deleted, and no such later query reports the record as live. -/
theorem command_record_stays_terminated
    (rc : List (String × CmdInfo)) (name : String) (info : CmdInfo)
    (now1 now2 : ℚ) (os1 os2 : Nat → Option ProcView)
    (hmem : dictGet rc name = some info)
    (hdead1 : os1 info.pid = none)
    (hdead2 : os2 info.pid = none) :
    dictGet (get_command_stats rc now1 os1) name = some .terminated ∧
    dictGet (get_command_stats rc now2 os2) name = some .terminated ∧
    (∀ (now : ℚ) (os : Nat → Option ProcView),
      (dictGet (get_command_stats rc now os) name).isSome = true) := by
  refine ⟨?_, ?_, ?_⟩
  · rw [dictGet_stats, hmem]
    simp [hdead1]
  · rw [dictGet_stats, hmem]
    simp [hdead2]
  · intro now os
    rw [dictGet_stats, hmem]
    simp

/-- C5 witness: a single registered command whose pid never resolves is
reported terminated by two successive queries and stays visible. -/
theorem command_record_stays_terminated_witness :
    dictGet [("run", (⟨5, 0, 0, 0⟩ : CmdInfo))] "run" = some ⟨5, 0, 0, 0⟩ ∧
    dictGet (get_command_stats [("run", ⟨5, 0, 0, 0⟩)] 1 (fun _ => none)) "run"
      = some .terminated ∧
    dictGet (get_command_stats [("run", ⟨5, 0, 0, 0⟩)] 2 (fun _ => none)) "run"
      = some .terminated :=
  ⟨rfl,
    (command_record_stays_terminated [("run", ⟨5, 0, 0, 0⟩)] "run" ⟨5, 0, 0, 0⟩
      1 2 (fun _ => none) (fun _ => none) rfl rfl rfl).1,
    (command_record_stays_terminated [("run", ⟨5, 0, 0, 0⟩)] "run" ⟨5, 0, 0, 0⟩
      1 2 (fun _ => none) (fun _ => none) rfl rfl rfl).2.1⟩

lemma dictGet_dictSet_self {α : Type} (m : List (String × α)) (k : String) (v : α) :
    dictGet (dictSet m k v) k = some v := by
  induction m with
  | nil => simp [dictSet, dictGet]
  | cons p rest ih =>
      obtain ⟨k', v'⟩ := p
      by_cases hk : k' = k
      · simp [dictSet, dictGet, hk]
      · simp [dictSet, dictGet, hk, ih]

/-- C10: registering a command name that is already registered silently
overwrites the record: the stored pid and start time become the new
values and the old record is unreachable through lookup, so a
subsequent stats query for that name measures runtime from the new
start time. -/
theorem register_command_overwrites
    (rc : List (String × CmdInfo)) (name : String) (pid : Nat) (t now : ℚ)
    (os : Nat → Option ProcView) (pv : ProcView) (hlive : os pid = some pv) :
    dictGet (register_command rc name pid t) name = some ⟨pid, t, 0, 0⟩ ∧
    dictGet (get_command_stats (register_command rc name pid t) now os) name
      = some (.live pid (now - t) pv.cpu (pv.memory / (1024 * 1024)) pv.status) := by
  constructor
  · exact dictGet_dictSet_self rc name _
  · rw [dictGet_stats]
    simp only [register_command]
    rw [dictGet_dictSet_self]
    simp [hlive]

/-- C10 witness: re-registering the name run replaces the old record
(pid 7, started at 100) with the new one (pid 9, started at 200), and
the next query measures runtime from 200. -/
theorem register_command_overwrites_witness :
    (fun _ : Nat => some (⟨1, 2097152, "running"⟩ : ProcView)) 9
        = some ⟨1, 2097152, "running"⟩ ∧
    dictGet (register_command [("run", ⟨7, 100, 0, 0⟩)] "run" 9 200) "run"
      = some ⟨9, 200, 0, 0⟩ ∧
    dictGet (get_command_stats (register_command [("run", ⟨7, 100, 0, 0⟩)] "run" 9 200)
        300 (fun _ => some ⟨1, 2097152, "running"⟩)) "run"
      = some (.live 9 (300 - 200) 1 (2097152 / (1024 * 1024)) "running") :=
  ⟨rfl,
    (register_command_overwrites [("run", ⟨7, 100, 0, 0⟩)] "run" 9 200 300
      (fun _ => some ⟨1, 2097152, "running"⟩) ⟨1, 2097152, "running"⟩ rfl).1,
    (register_command_overwrites [("run", ⟨7, 100, 0, 0⟩)] "run" 9 200 300
      (fun _ => some ⟨1, 2097152, "running"⟩) ⟨1, 2097152, "running"⟩ rfl).2⟩

/-- C7: the suggested actions of an analysis are enqueued onto the
action queue, each one and in list order at the back of the queue,
exactly when the confidence strictly exceeds 0.7; at confidence 0.7 or
lower, or with no confidence value, nothing is enqueued. -/
theorem process_analysis_threshold (a : Analysis) (q : List Json) :
    ((7 : ℚ) / 10 < a.confidence.getD 0 →
      process_analysis a q = q ++ a.suggested_actions) ∧
    (a.confidence.getD 0 ≤ (7 : ℚ) / 10 → process_analysis a q = q) ∧
    (a.confidence = none → process_analysis a q = q) := by
  refine ⟨?_, ?_, ?_⟩
  · intro hgt
    simp [process_analysis, hgt]
  · intro hle
    simp [process_analysis, not_lt.mpr hle]
  · intro hnone
    simp only [process_analysis, hnone, Option.getD_none]
    rw [if_neg (by norm_num)]

lemma foldl_confidence_sum (l : List Entry) :
    ∀ a : ℚ, l.foldl (fun s e => s + e.confidence.getD 0) a
      = a + (l.map (fun e => e.confidence.getD 0)).sum := by
  induction l with
  | nil => intro a; simp
  | cons e l ih =>
      intro a
      simp only [List.foldl_cons, List.map_cons, List.sum_cons]
      rw [ih, add_assoc]

lemma dictGet_bumpKey_self (m : List (String × Nat)) (k : String) :
    dictGet (bumpKey m k) k = some ((dictGet m k).getD 0 + 1) := by
  induction m with
  | nil => simp [bumpKey, dictGet]
  | cons p rest ih =>
      obtain ⟨k0, c⟩ := p
      by_cases h0 : k0 = k
      · subst h0
        simp [bumpKey, dictGet]
      · simp [bumpKey, dictGet, h0, ih]

lemma dictGet_bumpKey_other (m : List (String × Nat)) (k k' : String) (h : k' ≠ k) :
    dictGet (bumpKey m k) k' = dictGet m k' := by
  induction m with
  | nil => simp [bumpKey, dictGet, Ne.symm h]
  | cons p rest ih =>
      obtain ⟨k0, c⟩ := p
      by_cases h0 : k0 = k
      · subst h0
        simp [bumpKey, dictGet, Ne.symm h]
      · simp [bumpKey, dictGet, h0, ih]

lemma countVal_foldl_bump (es : List String) :
    ∀ (m : List (String × Nat)) (k : String),
      countVal (es.foldl bumpKey m) k = countVal m k + es.count k := by
  induction es with
  | nil => intro m k; simp
  | cons a es ih =>
      intro m k
      simp only [List.foldl_cons]
      rw [ih]
      by_cases h : k = a
      · subst h
        have h1 : countVal (bumpKey m k) k = countVal m k + 1 := by
          simp [countVal, dictGet_bumpKey_self]
        rw [h1, List.count_cons]
        simp only [beq_self_eq_true, if_true]
        omega
      · have h1 : countVal (bumpKey m a) k = countVal m k := by
          simp [countVal, dictGet_bumpKey_other m a k h]
        rw [h1, List.count_cons]
        have h2 : (a == k) = false := by
          simp [Ne.symm h]
        rw [h2]
        simp

lemma map_fst_bumpKey (m : List (String × Nat)) (k : String) :
    (bumpKey m k).map Prod.fst = addFirst (m.map Prod.fst) k := by
  induction m with
  | nil => simp [bumpKey, addFirst]
  | cons p rest ih =>
      obtain ⟨k0, c⟩ := p
      by_cases h0 : k0 = k
      · subst h0
        simp [bumpKey, addFirst]
      · have hL : (bumpKey ((k0, c) :: rest) k).map Prod.fst
            = k0 :: addFirst (rest.map Prod.fst) k := by
          simp [bumpKey, h0, ih]
        rw [hL]
        simp only [List.map_cons, addFirst]
        by_cases hm : k ∈ rest.map Prod.fst
        · rw [if_pos hm, if_pos (List.mem_cons_of_mem k0 hm)]
        · rw [if_neg hm, if_neg (by
            intro hc
            rcases List.mem_cons.mp hc with h1 | h1
            · exact h0 h1.symm
            · exact hm h1)]
          simp

lemma map_fst_foldl_bump (es : List String) :
    ∀ m : List (String × Nat),
      (es.foldl bumpKey m).map Prod.fst = es.foldl addFirst (m.map Prod.fst) := by
  induction es with
  | nil => intro m; rfl
  | cons a es ih =>
      intro m
      simp only [List.foldl_cons]
      rw [ih, map_fst_bumpKey]

lemma patternsOf_keys_aux (entries : List Entry) :
    ∀ m : List (String × Nat),
      ((entries.foldl (fun m e => e.key_elements.foldl bumpKey m) m).map Prod.fst)
        = ((entries.map Entry.key_elements).flatten).foldl addFirst (m.map Prod.fst) := by
  induction entries with
  | nil => intro m; rfl
  | cons e entries ih =>
      intro m
      simp only [List.foldl_cons, List.map_cons, List.flatten_cons, List.foldl_append]
      rw [ih, map_fst_foldl_bump]

lemma patternsOf_keys (entries : List Entry) :
    (patternsOf entries).map Prod.fst
      = firstSeens ((entries.map Entry.key_elements).flatten) := by
  have h := patternsOf_keys_aux entries []
  simpa [patternsOf, firstSeens] using h

lemma patternsOf_count_aux (entries : List Entry) :
    ∀ (m : List (String × Nat)) (k : String),
      countVal (entries.foldl (fun m e => e.key_elements.foldl bumpKey m) m) k
        = countVal m k + ((entries.map Entry.key_elements).flatten).count k := by
  induction entries with
  | nil => intro m k; simp
  | cons e entries ih =>
      intro m k
      simp only [List.foldl_cons, List.map_cons, List.flatten_cons, List.count_append]
      rw [ih, countVal_foldl_bump]
      omega

lemma patternsOf_count (entries : List Entry) (k : String) :
    countVal (patternsOf entries) k
      = ((entries.map Entry.key_elements).flatten).count k := by
  have h := patternsOf_count_aux entries [] k
  simpa [patternsOf, countVal, dictGet] using h

lemma mem_lexInsert (a x : Nat × (String × Nat)) (L : List (Nat × (String × Nat))) :
    x ∈ lexInsert a L ↔ x = a ∨ x ∈ L := by
  induction L with
  | nil => simp [lexInsert]
  | cons b l ih =>
      by_cases hc : b.2.2 < a.2.2 ∨ (b.2.2 = a.2.2 ∧ a.1 < b.1)
      · simp only [lexInsert, if_pos hc, List.mem_cons]
      · simp only [lexInsert, if_neg hc, List.mem_cons, ih]
        tauto

lemma mem_lexSort (L : List (Nat × (String × Nat))) (x : Nat × (String × Nat)) :
    x ∈ lexSort L ↔ x ∈ L := by
  induction L with
  | nil => simp [lexSort]
  | cons a l ih =>
      simp only [lexSort, mem_lexInsert, List.mem_cons, ih]

lemma insertDesc_map_snd (a : Nat × (String × Nat)) (L : List (Nat × (String × Nat)))
    (hgt : ∀ b ∈ L, a.1 < b.1) :
    insertDesc a.2 (L.map Prod.snd) = (lexInsert a L).map Prod.snd := by
  induction L with
  | nil => rfl
  | cons b l ih =>
      have hab : a.1 < b.1 := hgt b (List.mem_cons_self b l)
      by_cases hle : b.2.2 ≤ a.2.2
      · have hcond : b.2.2 < a.2.2 ∨ (b.2.2 = a.2.2 ∧ a.1 < b.1) := by
          rcases Nat.lt_or_ge b.2.2 a.2.2 with h | h
          · exact Or.inl h
          · exact Or.inr ⟨Nat.le_antisymm hle h, hab⟩
        simp only [List.map_cons, insertDesc, if_pos hle, lexInsert, if_pos hcond]
      · have hcond : ¬(b.2.2 < a.2.2 ∨ (b.2.2 = a.2.2 ∧ a.1 < b.1)) := by
          push_neg
          exact ⟨by omega, fun h => absurd h.le hle⟩
        simp only [List.map_cons, insertDesc, if_neg hle, lexInsert, if_neg hcond]
        rw [ih (fun c hc => hgt c (List.mem_cons_of_mem _ hc))]

lemma enumFrom_fst_ge {α : Type} (l : List α) :
    ∀ (n : Nat) (b : Nat × α), b ∈ List.enumFrom n l → n ≤ b.1 := by
  induction l with
  | nil => intro n b hb; simp at hb
  | cons a l ih =>
      intro n b hb
      rw [List.enumFrom_cons] at hb
      rcases List.mem_cons.mp hb with h1 | h1
      · subst h1; simp
      · have := ih (n + 1) b h1
        omega

lemma sortDesc_eq_lexSort (l : List (String × Nat)) :
    ∀ n : Nat, sortDesc l = (lexSort (List.enumFrom n l)).map Prod.snd := by
  induction l with
  | nil => intro n; rfl
  | cons a l ih =>
      intro n
      rw [List.enumFrom_cons]
      simp only [sortDesc, lexSort]
      rw [ih (n + 1)]
      exact insertDesc_map_snd (n, a) (lexSort (List.enumFrom (n + 1) l))
        (fun b hb => by
          have h1 := (mem_lexSort _ b).mp hb
          have h2 := enumFrom_fst_ge l (n + 1) b h1
          omega)

lemma sortDesc_take_spec (counts : List (String × Nat)) :
    (sortDesc counts).take 5 = spec_top_patterns counts := by
  unfold spec_top_patterns
  rw [show counts.enum = List.enumFrom 0 counts from rfl, ← sortDesc_eq_lexSort counts 0]

/-- C8: on a non-empty analysis log, `get_daily_summary` reports the
number of observations, the arithmetic mean of the entries' confidence
values (a missing confidence counting as 0, as `get("confidence", 0)`
does), the first and the last entry's timestamps, and as common
patterns the five most frequent key elements ordered by frequency
descending with ties broken by first-seen order; the tabulated
frequencies are the true occurrence counts over all entries and the
table keys are in first-seen order. -/
theorem daily_summary_spec (e0 : Entry) (rest : List Entry) :
    ∃ s : Summary,
      get_daily_summary (e0 :: rest) = some s ∧
      s.total_observations = (e0 :: rest).length ∧
      s.average_confidence
        = (((e0 :: rest).map (fun e => e.confidence.getD 0)).sum) / ((e0 :: rest).length : ℚ) ∧
      s.start_time = e0.timestamp ∧
      s.end_time = ((e0 :: rest).getLast (List.cons_ne_nil e0 rest)).timestamp ∧
      s.common_patterns = spec_top_patterns (patternsOf (e0 :: rest)) ∧
      (patternsOf (e0 :: rest)).map Prod.fst
        = firstSeens (((e0 :: rest).map Entry.key_elements).flatten) ∧
      ∀ k, countVal (patternsOf (e0 :: rest)) k
        = (((e0 :: rest).map Entry.key_elements).flatten).count k := by
  refine ⟨_, rfl, rfl, ?_, rfl, rfl, sortDesc_take_spec _,
    patternsOf_keys _, fun k => patternsOf_count _ k⟩
  show ((e0 :: rest).foldl (fun s e => s + e.confidence.getD 0) 0) / ((e0 :: rest).length : ℚ)
      = (((e0 :: rest).map (fun e => e.confidence.getD 0)).sum) / ((e0 :: rest).length : ℚ)
  rw [foldl_confidence_sum, zero_add]

/-- C7 witness: confidence 0.8 enqueues the suggested action, 0.7 and a
missing confidence enqueue nothing. -/
theorem process_analysis_threshold_witness :
    process_analysis ⟨some (8 / 10), [Json.str "a"]⟩ [] = [Json.str "a"] ∧
    process_analysis ⟨some (7 / 10), [Json.str "a"]⟩ [] = [] ∧
    process_analysis ⟨none, [Json.str "a"]⟩ [] = [] :=
  ⟨by
    have h := (process_analysis_threshold ⟨some (8 / 10), [Json.str "a"]⟩ []).1
      (by norm_num)
    simpa using h,
   (process_analysis_threshold ⟨some (7 / 10), [Json.str "a"]⟩ []).2.1 (by norm_num),
   (process_analysis_threshold ⟨none, [Json.str "a"]⟩ []).2.2 rfl⟩

end Engine

end Shitposter
